import Mathlib

/-!
Verification of the communication core of the `hacs_sungrow_modbus`
integration against its natural-language specification.

The Python source is shallowly embedded: each modelled Python function or
method becomes an executable Lean definition operating on explicit state.
Wall-clock instants (`datetime.now(UTC)`, `time.monotonic()`) are modelled
as rationals passed explicitly to the operations that read the clock.
-/

namespace SungrowModbus

/-! ## Circuit breaker (`modbus_controller.py`, class `CircuitBreaker`) -/

/-- States of the circuit breaker (`CircuitState` in `modbus_controller.py`).
`opened` models Python's `CircuitState.OPEN` (`open` is a Lean keyword). -/
inductive CircuitState
  | closed
  | opened
  | halfOpen
deriving DecidableEq, Repr

/-- The `CircuitBreaker` dataclass.  `recovery_timeout` (a `timedelta`) and
`last_failure_time` (a `datetime`) are modelled as rational instants /
durations. -/
structure CircuitBreaker where
  failure_threshold : Nat := 5
  recovery_timeout : ℚ := 300
  state : CircuitState := CircuitState.closed
  failure_count : Nat := 0
  last_failure_time : Option ℚ := none
deriving DecidableEq, Repr

/-- `CircuitBreaker.record_success`: unconditionally reset to CLOSED with
zero failures and no last-failure time. -/
def CircuitBreaker.record_success (cb : CircuitBreaker) : CircuitBreaker :=
  { cb with
    failure_count := 0
    state := CircuitState.closed
    last_failure_time := none }

/-- `CircuitBreaker.record_failure`: increment the failure count and stamp
`last_failure_time` with the current time `now`; then HALF_OPEN goes back to
OPEN unconditionally, and CLOSED trips to OPEN when the (already
incremented) count reaches the threshold.  An already-OPEN breaker keeps its
state. -/
def CircuitBreaker.record_failure (cb : CircuitBreaker) (now : ℚ) : CircuitBreaker :=
  let cb' := { cb with
    failure_count := cb.failure_count + 1
    last_failure_time := some now }
  if cb'.state = CircuitState.halfOpen then
    { cb' with state := CircuitState.opened }
  else if cb'.failure_count ≥ cb'.failure_threshold ∧ cb'.state = CircuitState.closed then
    { cb' with state := CircuitState.opened }
  else
    cb'

/-- `CircuitBreaker.can_attempt`: returns whether a connection attempt is
allowed, together with the (possibly updated) breaker.  CLOSED and HALF_OPEN
allow the attempt without any state change; OPEN allows it — moving to
HALF_OPEN — exactly when the recovery timeout has elapsed since the recorded
last failure. -/
def CircuitBreaker.can_attempt (cb : CircuitBreaker) (now : ℚ) : Bool × CircuitBreaker :=
  if cb.state = CircuitState.closed then
    (true, cb)
  else if cb.state = CircuitState.opened then
    match cb.last_failure_time with
    | some t =>
        if now - t ≥ cb.recovery_timeout then
          (true, { cb with state := CircuitState.halfOpen })
        else
          (false, cb)
    | none => (false, cb)
  else
    (true, cb)

/-- A fresh breaker as built by `CircuitBreaker(...)`: CLOSED, zero
failures, no last-failure time, with the given threshold and timeout. -/
def CircuitBreaker.init (thr : Nat) (timeout : ℚ) : CircuitBreaker :=
  { failure_threshold := thr
    recovery_timeout := timeout
    state := CircuitState.closed
    failure_count := 0
    last_failure_time := none }

/-- The three operations a caller can perform on a breaker, each tagged with
the wall-clock instant at which it happens (only `record_failure` and
`can_attempt` read the clock). -/
inductive CBEvent
  | success
  | failure (t : ℚ)
  | attempt (t : ℚ)
deriving Repr

/-- One breaker operation (the boolean result of `can_attempt` is
discarded; only the state evolution matters for reachability). -/
def cbStep (cb : CircuitBreaker) : CBEvent → CircuitBreaker
  | CBEvent.success => cb.record_success
  | CBEvent.failure t => cb.record_failure t
  | CBEvent.attempt t => (cb.can_attempt t).2

/-- Run a sequence of breaker operations. -/
def cbRun (cb : CircuitBreaker) (evs : List CBEvent) : CircuitBreaker :=
  evs.foldl cbStep cb

/-- A breaker state is reachable when some sequence of operations produces
it from a freshly constructed breaker. -/
def CBReachable (cb : CircuitBreaker) : Prop :=
  ∃ thr timeout evs, cbRun (CircuitBreaker.init thr timeout) evs = cb

/-- Key invariant: a breaker that is not CLOSED always carries a
last-failure time (OPEN is only entered by `record_failure`, which stamps
it; HALF_OPEN is only entered from OPEN by `can_attempt`, which keeps it). -/
def CBInv (cb : CircuitBreaker) : Prop :=
  cb.state ≠ CircuitState.closed → cb.last_failure_time ≠ none

/-! ## Value codec (`helpers.py`, `battery_controller.py`,
`sensors/sungrow_base_sensor.py`)

Raw registers are unsigned 16-bit values delivered by pymodbus, so they are
modelled as `Nat`.  Python (byte) strings are modelled as lists of Unicode
codepoints. -/

/-- `helpers.split_s32`: combine two 16-bit registers `[high, low]` into a
signed 32-bit integer.  Fewer than two registers yield `0`; extra registers
beyond the first two are ignored (the code only indexes `[0]` and `[1]`). -/
def split_s32 (s32_values : List Nat) : ℤ :=
  match s32_values with
  | high_word :: low_word :: _ =>
      let unsigned_value := (high_word <<< 16) ||| (low_word &&& 0xFFFF)
      if unsigned_value ≥ 2 ^ 31 then (unsigned_value : ℤ) - 2 ^ 32
      else (unsigned_value : ℤ)
  | _ => 0

/-- One 16-bit register packed as two big-endian bytes
(`struct.pack(">H", r)` in `extract_serial_number`,
`reg.to_bytes(2, byteorder="big")` in `_decode_string`). -/
def toBytesBE2 (reg : Nat) : List Nat :=
  [reg / 256 % 256, reg % 256]

/-- Pack a register list into its big-endian byte sequence. -/
def packRegisters (regs : List Nat) : List Nat :=
  (regs.map toBytesBE2).flatten

/-- `bytes.decode("ascii", errors="ignore")`: each byte below 0x80 maps to
the character with that code; every other byte is dropped. -/
def asciiDecodeIgnore (bs : List Nat) : List Nat :=
  bs.filter (fun b => decide (b < 128))

/-- Is `b` a UTF-8 continuation byte (0x80–0xBF)? -/
def isCont (b : Nat) : Bool :=
  decide (0x80 ≤ b ∧ b < 0xC0)

/-- Valid range of the first continuation byte of a multi-byte UTF-8
sequence with lead byte `b0` (Unicode Table 3-7, as enforced by CPython:
excludes overlong encodings, surrogates and codepoints above U+10FFFF). -/
def utf8Cont1Ok (b0 b1 : Nat) : Bool :=
  if b0 = 0xE0 then decide (0xA0 ≤ b1 ∧ b1 < 0xC0)
  else if b0 = 0xED then decide (0x80 ≤ b1 ∧ b1 < 0xA0)
  else if b0 = 0xF0 then decide (0x90 ≤ b1 ∧ b1 < 0xC0)
  else if b0 = 0xF4 then decide (0x80 ≤ b1 ∧ b1 < 0x90)
  else isCont b1

/-- `bytes.decode("utf-8", errors="ignore")`, producing the list of decoded
codepoints.  On an invalid byte the CPython error handler drops the maximal
valid prefix of the offending sequence and resumes at the first byte that
broke it; a sequence truncated by the end of input is dropped entirely. -/
def utf8DecodeAux : Nat → List Nat → List Nat
  | 0, _ => []
  | _, [] => []
  | Nat.succ n, b0 :: rest =>
    if b0 < 0x80 then b0 :: utf8DecodeAux n rest
    else if b0 < 0xC2 then utf8DecodeAux n rest
    else if b0 < 0xE0 then
      match rest with
      | [] => []
      | b1 :: rest1 =>
        if isCont b1 then ((b0 - 0xC0) * 0x40 + (b1 - 0x80)) :: utf8DecodeAux n rest1
        else utf8DecodeAux n rest
    else if b0 < 0xF0 then
      match rest with
      | [] => []
      | b1 :: rest1 =>
        if utf8Cont1Ok b0 b1 then
          match rest1 with
          | [] => []
          | b2 :: rest2 =>
            if isCont b2 then
              ((b0 - 0xE0) * 0x1000 + (b1 - 0x80) * 0x40 + (b2 - 0x80)) :: utf8DecodeAux n rest2
            else utf8DecodeAux n rest1
        else utf8DecodeAux n rest
    else if b0 < 0xF5 then
      match rest with
      | [] => []
      | b1 :: rest1 =>
        if utf8Cont1Ok b0 b1 then
          match rest1 with
          | [] => []
          | b2 :: rest2 =>
            if isCont b2 then
              match rest2 with
              | [] => []
              | b3 :: rest3 =>
                if isCont b3 then
                  ((b0 - 0xF0) * 0x40000 + (b1 - 0x80) * 0x1000 +
                      (b2 - 0x80) * 0x40 + (b3 - 0x80)) :: utf8DecodeAux n rest3
                else utf8DecodeAux n rest2
            else utf8DecodeAux n rest1
        else utf8DecodeAux n rest
    else utf8DecodeAux n rest

/-- The decoder entry point.  Every recursive step of `utf8DecodeAux`
consumes at least one byte, so fuel equal to the byte count is exact. -/
def utf8DecodeIgnore (bs : List Nat) : List Nat :=
  utf8DecodeAux bs.length bs

/-- Codepoints for which Python's `str.isspace()` holds — the set removed by
a bare `str.strip()`. -/
def pyWhitespace : List Nat :=
  [0x09, 0x0A, 0x0B, 0x0C, 0x0D, 0x1C, 0x1D, 0x1E, 0x1F, 0x20, 0x85, 0xA0,
   0x1680, 0x2000, 0x2001, 0x2002, 0x2003, 0x2004, 0x2005, 0x2006, 0x2007,
   0x2008, 0x2009, 0x200A, 0x2028, 0x2029, 0x202F, 0x205F, 0x3000]

def isPySpace (c : Nat) : Bool :=
  pyWhitespace.contains c

/-- `str.lstrip`: drop leading characters satisfying `p`. -/
def lstripP (p : Nat → Bool) (s : List Nat) : List Nat :=
  s.dropWhile p

/-- `str.rstrip`: drop trailing characters satisfying `p`. -/
def rstripP (p : Nat → Bool) (s : List Nat) : List Nat :=
  (s.reverse.dropWhile p).reverse

/-- `str.strip`: drop from both ends. -/
def stripP (p : Nat → Bool) (s : List Nat) : List Nat :=
  lstripP p (rstripP p s)

/-- `helpers.extract_serial_number`: pack the registers big-endian, decode
as ASCII ignoring invalid bytes, then `strip("\x00\r\n ")` (NUL, CR, LF and
space, from both ends). -/
def extract_serial_number (values : List Nat) : List Nat :=
  stripP (fun c => ([0x00, 0x0D, 0x0A, 0x20] : List Nat).contains c)
    (asciiDecodeIgnore (packRegisters values))

/-- `BatteryController._decode_string`: pack the registers big-endian,
decode as UTF-8 ignoring invalid bytes, then `.rstrip("\x00").strip()`. -/
def decode_string (registers : List Nat) : List Nat :=
  stripP isPySpace (rstripP (fun c => c == 0) (utf8DecodeIgnore (packRegisters registers)))

/-- The multi-register string decode exactly as the specification sentence
states it: pack big-endian, decode UTF-8 ignoring invalid bytes, strip
*trailing* NUL and whitespace (and nothing from the front). -/
def claimStringDecode (registers : List Nat) : List Nat :=
  rstripP (fun c => c == 0 || isPySpace c) (utf8DecodeIgnore (packRegisters registers))

/-- The amended decode pipeline of the battery decoder `_decode_string`:
pack big-endian, decode UTF-8 ignoring invalid bytes, strip trailing NULs,
then strip whitespace from *both* ends (stated trailing-side-first, unlike
the implementation's `rstrip`-then-`strip`). -/
def amendedStringDecode (registers : List Nat) : List Nat :=
  rstripP isPySpace
    (lstripP isPySpace (rstripP (fun c => c == 0) (utf8DecodeIgnore (packRegisters registers))))

/-- The amended decode pipeline of the sensor-codec decoder
`extract_serial_number`: pack big-endian, decode ASCII dropping every
non-ASCII byte, then strip NUL, CR, LF and space from *both* ends (stated
trailing-side-first, unlike the implementation's single `strip`). -/
def amendedSerialDecode (registers : List Nat) : List Nat :=
  rstripP (fun c => ([0x00, 0x0D, 0x0A, 0x20] : List Nat).contains c)
    (lstripP (fun c => ([0x00, 0x0D, 0x0A, 0x20] : List Nat).contains c)
      (asciiDecodeIgnore (packRegisters registers)))

/-- A decoded sensor value: numeric (Python int/float, modelled as ℚ) or
string. -/
inductive SensorValue
  | num (q : ℚ)
  | str (s : List Nat)
deriving DecidableEq, Repr

/-- `if None in values: return None` followed by use of the raw integers:
sequence the optional raw values. -/
def sequenceValues : List (Option Nat) → Option (List Nat)
  | [] => some []
  | none :: _ => none
  | some v :: rest => (sequenceValues rest).map (fun vs => v :: vs)

/-- `SungrowBaseSensor._convert_raw_value` for a sensor whose
`value_mapping` is `None` (mapping-free sensors return the converted value
unchanged; `_validate_read_value` only logs and never alters the value).
`numRegistrars` is `len(self.registrars)`, `multiplier` the scale factor
and `signed` the S16 flag.  Python's `round()` applied to an `int` is the
identity, so the `multiplier in (0, 1)` branches return the integer value
itself.  An empty register list would raise `IndexError` in Python and is
modelled as `none` (sensors always carry at least one register). -/
def convert_raw_value (numRegistrars : Nat) (multiplier : ℚ) (signed : Bool)
    (values : List (Option Nat)) : Option SensorValue :=
  match sequenceValues values with
  | none => none
  | some vs =>
    if multiplier = 0 ∧ numRegistrars > 1 then
      some (SensorValue.str (extract_serial_number vs))
    else if numRegistrars > 1 then
      let combined := split_s32 vs
      if multiplier = 0 ∨ multiplier = 1 then some (SensorValue.num (combined : ℚ))
      else some (SensorValue.num ((combined : ℚ) * multiplier))
    else
      match vs with
      | [] => none
      | raw :: _ =>
        let corrected : ℤ := if signed ∧ raw ≥ 32768 then (raw : ℤ) - 65536 else (raw : ℤ)
        if multiplier = 0 ∨ multiplier = 1 then some (SensorValue.num (corrected : ℚ))
        else some (SensorValue.num ((corrected : ℚ) * multiplier))

/-! ## Python dict model

Association list with insertion order preserved and unique keys:
`d[k] = v` overwrites in place, `del d[k]` removes the entry. -/

def dictGet {β : Type} (m : List (String × β)) (k : String) : Option β :=
  match m with
  | [] => none
  | (k', v) :: t => if k' = k then some v else dictGet t k

def dictSet {β : Type} (m : List (String × β)) (k : String) (v : β) : List (String × β) :=
  match m with
  | [] => [(k, v)]
  | (k', v') :: t => if k' = k then (k, v) :: t else (k', v') :: dictSet t k v

def dictDel {β : Type} (m : List (String × β)) (k : String) : List (String × β) :=
  match m with
  | [] => []
  | (k', v') :: t => if k' = k then t else (k', v') :: dictDel t k

/-! ## Register cache (`helpers.py`, class `RegisterCache`)

`time.monotonic()` instants are passed explicitly as rationals. -/

/-- The `CachedValue` dataclass (values are raw register integers here). -/
structure CachedValue where
  value : ℤ
  expires_at : ℚ
deriving DecidableEq, Repr

/-- The cache's backing dict `self._cache`. -/
abbrev RegisterCache := List (String × CachedValue)

/-- `RegisterCache._make_key`. -/
def make_key (controller_key : String) (register : Nat) : String :=
  controller_key ++ ":" ++ toString register

/-- `RegisterCache.get`: if the key is present but expired
(`now >= expires_at`), delete the entry and return `None`; otherwise return
the stored value.  Returns the result together with the updated cache. -/
def cacheGet (cache : RegisterCache) (now : ℚ) (controller_key : String) (register : Nat) :
    Option ℤ × RegisterCache :=
  let key := make_key controller_key register
  match dictGet cache key with
  | none => (none, cache)
  | some cached =>
      if now ≥ cached.expires_at then (none, dictDel cache key)
      else (some cached.value, cache)

/-- `RegisterCache.set`: store with `expires_at = time.monotonic() + ttl`. -/
def cacheSet (cache : RegisterCache) (now : ℚ) (controller_key : String) (register : Nat)
    (value : ℤ) (ttl_seconds : ℚ) : RegisterCache :=
  dictSet cache (make_key controller_key register) ⟨value, now + ttl_seconds⟩

/-- `RegisterCache.stats()`. -/
structure CacheStats where
  total_entries : Nat
  expired_entries : Nat
deriving DecidableEq, Repr

def cacheStats (cache : RegisterCache) (now : ℚ) : CacheStats :=
  ⟨cache.length, (cache.filter (fun kv => decide (now ≥ kv.2.expires_at))).length⟩

/-! ## Connection pool (`client_manager.py`, class `ModbusClientManager`) -/

/-- One entry of `self._clients`: the transport object (identified by its
allocation number) and its reference count (a Python `int`). -/
structure PoolEntry where
  client : Nat
  ref_count : ℤ
deriving DecidableEq, Repr

/-- The manager state: the client dict, an allocation counter giving each
constructed transport a distinct identity, and the list of transports on
which `close()` has been invoked. -/
structure PoolState where
  clients : List (String × PoolEntry)
  next_client : Nat
  closed : List Nat
deriving DecidableEq, Repr

def PoolState.start : PoolState := ⟨[], 0, []⟩

/-- `ModbusClientManager.get_tcp_client` for the identity `key`
(`f"{host}:{port}"`): on first call construct a fresh transport with
`ref_count` 0, then increment the count and return the stored transport
(construction and increment happen inside one locked call, so they are
folded into a single step; `get_serial_client` is identical except for the
transport constructor arguments). -/
def get_tcp_client (s : PoolState) (key : String) : Nat × PoolState :=
  match dictGet s.clients key with
  | none =>
      (s.next_client,
        ⟨dictSet s.clients key ⟨s.next_client, 1⟩, s.next_client + 1, s.closed⟩)
  | some e =>
      (e.client,
        ⟨dictSet s.clients key { e with ref_count := e.ref_count + 1 }, s.next_client, s.closed⟩)

/-- `ModbusClientManager.release_client`: decrement the count; when it
drops to zero or below, close the transport (only if it is connected —
`conn` gives each transport's `connected` attribute) and remove the entry. -/
def release_client (conn : Nat → Bool) (s : PoolState) (key : String) : PoolState :=
  match dictGet s.clients key with
  | none => s
  | some e =>
      if e.ref_count - 1 ≤ 0 then
        ⟨dictDel s.clients key, s.next_client,
          if conn e.client then s.closed ++ [e.client] else s.closed⟩
      else
        ⟨dictSet s.clients key { e with ref_count := e.ref_count - 1 }, s.next_client, s.closed⟩

/-- The pool's public operations. -/
inductive PoolOp
  | acquire (key : String)
  | release (key : String)

def poolStep (conn : Nat → Bool) (s : PoolState) : PoolOp → PoolState
  | PoolOp.acquire key => (get_tcp_client s key).2
  | PoolOp.release key => release_client conn s key

def poolRun (conn : Nat → Bool) (s : PoolState) (ops : List PoolOp) : PoolState :=
  ops.foldl (poolStep conn) s

/-- A pool state is reachable when some sequence of acquire/release calls
produces it from the freshly constructed manager. -/
def PoolReachable (conn : Nat → Bool) (s : PoolState) : Prop :=
  ∃ ops, poolRun conn PoolState.start ops = s

/-- Pool invariant: client-dict keys are unique (it is a Python dict), every
stored entry has a positive reference count, and every stored transport was
allocated by the counter. -/
def PoolInv (s : PoolState) : Prop :=
  ((s.clients.map Prod.fst).Nodup) ∧
  ∀ kv ∈ s.clients, 1 ≤ kv.2.ref_count ∧ kv.2.client < s.next_client

/-! ## Device controller `connect()` (`modbus_controller.py`) -/

/-- Outcome of the guarded transport interaction inside `connect()`:
either `client.connect()` leaves the client connected, or it returns with
the client still disconnected, or it raises one of the caught exception
classes.  (`asyncio.CancelledError` is re-raised unconditionally and so
never reaches the recording code; it is outside this model.) -/
inductive TransportOutcome
  | success
  | notConnected
  | connException
  | osError
  | otherError
deriving DecidableEq, Repr

/-- The controller state `connect()` reads and writes. -/
structure ConnState where
  connected : Bool
  circuit_breaker : CircuitBreaker
  connect_failures : Nat
deriving DecidableEq, Repr

/-- What one `connect()` call did: its return value, whether
`client.connect()` was invoked at all, and the final controller state. -/
structure ConnectResult where
  returned : Bool
  transport_touched : Bool
  final : ConnState
deriving DecidableEq, Repr

/-- `ModbusController.connect`: no-op when already connected; consult the
circuit breaker and bail out without touching the transport when rejected;
otherwise attempt the transport connect and record the outcome. -/
def connect (s : ConnState) (now : ℚ) (outcome : TransportOutcome) : ConnectResult :=
  if s.connected then ⟨true, false, s⟩
  else
    let att := s.circuit_breaker.can_attempt now
    if att.1 then
      match outcome with
      | TransportOutcome.success =>
          ⟨true, true, ⟨true, att.2.record_success, 0⟩⟩
      | _ =>
          ⟨false, true, ⟨false, att.2.record_failure now, s.connect_failures + 1⟩⟩
    else ⟨false, false, { s with circuit_breaker := att.2 }⟩

/-! ## Write queue (`modbus_controller.py`, `process_write_queue`)

The consumer runs alone on the event loop.  Every iteration of its
`while True` body suspends exactly once: at the disconnected sleep, at the
empty-queue sleep, or — when connected with a non-empty queue — inside the
transport write of `_execute_write_holding_register(s)` (dequeuing with
`write_queue.get()` on a non-empty queue returns without suspending).
`conn k` gives the `connected()` answer at the loop's k-th iteration,
`execWrite` models the locked transport write, which returns the transport
result or `None` on failure and re-raises only `asyncio.CancelledError`,
and `cancelAt` counts the awaits that complete before the (single)
`asyncio.CancelledError` is delivered at the next one.  When that next
await is a transport write, the in-flight request has already been dequeued
and its `future.set_result` is never reached; the `except` handler then
drains only the requests still queued. -/

structure WriteRequest where
  register : Nat
  value : List ℤ
  multiple : Bool
deriving DecidableEq, Repr

/-- What happened to a request's completion future by the time the loop
exits: resolved (exactly once, via the `if not future.done()` guard) with
the write outcome, or never resolved. -/
inductive FutureState (ρ : Type)
  | resolved (res : Option ρ)
  | unresolved
deriving DecidableEq, Repr

def FutureState.isUnresolved {ρ : Type} : FutureState ρ → Bool
  | FutureState.unresolved => true
  | FutureState.resolved _ => false

/-- The drain in the `except asyncio.CancelledError` handler: dequeue and
execute every request still queued, resolving each future, before
re-raising. -/
def drainQueue {ρ : Type} (execWrite : WriteRequest → Option ρ) (q : List WriteRequest) :
    List (WriteRequest × FutureState ρ) :=
  q.map (fun r => (r, FutureState.resolved (execWrite r)))

/-- The consumer loop.  With budget `0` the cancellation is delivered at
this iteration's single await: at a sleep (disconnected or empty queue) the
queue is intact and the handler drains and resolves everything; at a
transport write the dequeued in-flight request stays unresolved and the
handler drains the rest.  With remaining budget the iteration runs
normally: sleep and retry, or dequeue one request, execute it, and resolve
its future.  The trace lists all requests in execution order with their
futures' final states. -/
def writeLoop {ρ : Type} (execWrite : WriteRequest → Option ρ) (conn : Nat → Bool) :
    Nat → Nat → List WriteRequest → List (WriteRequest × FutureState ρ)
  | 0, k, q =>
      if conn k then
        match q with
        | [] => []
        | r :: rest => (r, FutureState.unresolved) :: drainQueue execWrite rest
      else drainQueue execWrite q
  | Nat.succ n, k, q =>
      if conn k then
        match q with
        | [] => writeLoop execWrite conn n (k + 1) []
        | r :: rest =>
            (r, FutureState.resolved (execWrite r)) :: writeLoop execWrite conn n (k + 1) rest
      else writeLoop execWrite conn n (k + 1) q

/-- `ModbusController.process_write_queue` on a queue holding `q` (in
submission order, as enqueued by `async_write_holding_register(s)`). -/
def process_write_queue {ρ : Type} (execWrite : WriteRequest → Option ρ) (conn : Nat → Bool)
    (cancelAt : Nat) (q : List WriteRequest) : List (WriteRequest × FutureState ρ) :=
  writeLoop execWrite conn cancelAt 0 q

/-! ## Sub-device discovery (`battery_controller.py`, `const.py`) -/

def MAX_BATTERY_STACKS : Nat := 4

def BATTERY_SLAVE_BASE : Nat := 200

/-- `BatteryController.__init__`: `self.slave_id = BATTERY_SLAVE_BASE + stack_index`. -/
def battery_slave_id (stack_index : Nat) : Nat :=
  BATTERY_SLAVE_BASE + stack_index

/-- The probe loop of `detect_battery_stacks` from index `idx` with `n`
indices left: on a successful probe keep the stack and continue with the
next index, on the first failure stop entirely (`break`). -/
def detectFrom (probe : Nat → Bool) : Nat → Nat → List Nat
  | _, 0 => []
  | idx, Nat.succ n => if probe idx then idx :: detectFrom probe (idx + 1) n else []

/-- `detect_battery_stacks`: probe stack indices `0..MAX_BATTERY_STACKS-1`
sequentially; `probe i` is the outcome of `BatteryController.probe()` for
stack index `i` (a one-register read at slave id `200 + i`).  Returns the
detected stack indices. -/
def detect_battery_stacks (probe : Nat → Bool) : List Nat :=
  detectFrom probe 0 MAX_BATTERY_STACKS

/-! ## Theorems -/

theorem cbStep_inv (cb : CircuitBreaker) (e : CBEvent) (h : CBInv cb) : CBInv (cbStep cb e) := by
  cases e with
  | success =>
      intro hs
      simp [cbStep, CircuitBreaker.record_success] at hs
  | failure t =>
      intro _
      simp only [cbStep, CircuitBreaker.record_failure]
      split
      · simp
      · split
        · simp
        · simp
  | attempt t =>
      cases hst : cb.state with
      | closed =>
          intro hs
          simp [cbStep, CircuitBreaker.can_attempt, hst] at hs
      | halfOpen =>
          intro _
          have hlt := h (by simp [hst])
          simpa [cbStep, CircuitBreaker.can_attempt, hst] using hlt
      | opened =>
          cases hlt : cb.last_failure_time with
          | none => exact absurd hlt (h (by simp [hst]))
          | some t0 =>
              intro _
              by_cases hto : t - t0 ≥ cb.recovery_timeout
              · simp [cbStep, CircuitBreaker.can_attempt, hst, hlt, hto]
              · simp [cbStep, CircuitBreaker.can_attempt, hst, hlt, hto]

theorem cbRun_inv (cb : CircuitBreaker) (evs : List CBEvent) (h : CBInv cb) :
    CBInv (cbRun cb evs) := by
  induction evs generalizing cb with
  | nil => exact h
  | cons e rest ih => exact ih (cbStep cb e) (cbStep_inv cb e h)

theorem cbReachable_inv (cb : CircuitBreaker) (h : CBReachable cb) : CBInv cb := by
  obtain ⟨thr, timeout, evs, hrun⟩ := h
  have : CBInv (CircuitBreaker.init thr timeout) := by
    intro hs
    simp [CircuitBreaker.init] at hs
  simpa [hrun] using cbRun_inv _ evs this

/-- Projections of `record_failure` that hold in every state: the count is
incremented, the failure time is stamped, and configuration is untouched. -/
theorem record_failure_proj (cb : CircuitBreaker) (tf : ℚ) :
    (cb.record_failure tf).failure_count = cb.failure_count + 1 ∧
    (cb.record_failure tf).last_failure_time = some tf ∧
    (cb.record_failure tf).recovery_timeout = cb.recovery_timeout ∧
    (cb.record_failure tf).failure_threshold = cb.failure_threshold := by
  simp only [CircuitBreaker.record_failure]
  split
  · simp
  · split
    · simp
    · simp

/-- C1: the circuit-breaker operations realise exactly the documented
transition table, on every reachable breaker state: `record_success` resets
any state to CLOSED; `record_failure` trips CLOSED to OPEN iff the
incremented count reaches the threshold, sends HALF_OPEN back to OPEN
unconditionally, and leaves OPEN in OPEN while still counting;
`can_attempt` allows attempts in CLOSED and HALF_OPEN without state change,
and in OPEN moves to HALF_OPEN and allows the attempt exactly when the
recovery timeout has elapsed since the last failure, otherwise refusing
without state change. -/
theorem circuit_breaker_transition_table (cb : CircuitBreaker) (h : CBReachable cb) (now : ℚ) :
    ((cb.record_success).state = CircuitState.closed ∧
     (cb.record_success).failure_count = 0 ∧
     (cb.record_success).last_failure_time = none) ∧
    (cb.state = CircuitState.closed →
      (cb.record_failure now).state =
        (if cb.failure_count + 1 ≥ cb.failure_threshold then CircuitState.opened
         else CircuitState.closed) ∧
      (cb.record_failure now).failure_count = cb.failure_count + 1) ∧
    (cb.state = CircuitState.halfOpen → (cb.record_failure now).state = CircuitState.opened) ∧
    (cb.state = CircuitState.opened →
      (cb.record_failure now).state = CircuitState.opened ∧
      (cb.record_failure now).failure_count = cb.failure_count + 1) ∧
    (cb.state = CircuitState.closed → cb.can_attempt now = (true, cb)) ∧
    (cb.state = CircuitState.opened →
      ∃ t, cb.last_failure_time = some t ∧
        cb.can_attempt now =
          (if now - t ≥ cb.recovery_timeout then (true, { cb with state := CircuitState.halfOpen })
           else (false, cb))) ∧
    (cb.state = CircuitState.halfOpen → cb.can_attempt now = (true, cb)) := by
  have hinv := cbReachable_inv cb h
  refine ⟨⟨?_, ?_, ?_⟩, ?_, ?_, ?_, ?_, ?_, ?_⟩
  · simp [CircuitBreaker.record_success]
  · simp [CircuitBreaker.record_success]
  · simp [CircuitBreaker.record_success]
  · intro hst
    constructor
    · by_cases hth : cb.failure_count + 1 ≥ cb.failure_threshold
      · simp [CircuitBreaker.record_failure, hst, hth]
      · simp [CircuitBreaker.record_failure, hst, hth]
    · exact (record_failure_proj cb now).1
  · intro hst
    simp [CircuitBreaker.record_failure, hst]
  · intro hst
    refine ⟨by simp [CircuitBreaker.record_failure, hst], (record_failure_proj cb now).1⟩
  · intro hst
    simp [CircuitBreaker.can_attempt, hst]
  · intro hst
    cases hlt : cb.last_failure_time with
    | none => exact absurd hlt (hinv (by simp [hst]))
    | some t =>
        refine ⟨t, rfl, ?_⟩
        by_cases hto : now - t ≥ cb.recovery_timeout
        · simp [CircuitBreaker.can_attempt, hst, hlt, hto]
        · simp [CircuitBreaker.can_attempt, hst, hlt, hto]
  · intro hst
    simp [CircuitBreaker.can_attempt, hst]

theorem circuit_breaker_transition_table_witness :
    CBReachable ((CircuitBreaker.init 1 300).record_failure 0) ∧
    (((CircuitBreaker.init 1 300).record_failure 0).record_success).state =
      CircuitState.closed :=
  ⟨⟨1, 300, [CBEvent.failure 0], rfl⟩,
    (circuit_breaker_transition_table ((CircuitBreaker.init 1 300).record_failure 0)
      ⟨1, 300, [CBEvent.failure 0], rfl⟩ 5).1.1⟩

/-- C10: `record_failure` stamps `last_failure_time` with the current time
in every state, OPEN included; hence while the circuit is OPEN each
additional recorded failure restarts the recovery window, and
`can_attempt` only allows an attempt once a full `recovery_timeout` has
passed since the most recent failure. -/
theorem record_failure_restarts_window (cb : CircuitBreaker) (tf now : ℚ) :
    (cb.record_failure tf).last_failure_time = some tf ∧
    (cb.state = CircuitState.opened →
      (cb.record_failure tf).state = CircuitState.opened ∧
      (((cb.record_failure tf).can_attempt now).1 = true ↔
        cb.recovery_timeout ≤ now - tf)) := by
  obtain ⟨hfc, hlt, hrt, -⟩ := record_failure_proj cb tf
  refine ⟨hlt, fun hst => ?_⟩
  have h1 : (cb.record_failure tf).state = CircuitState.opened := by
    simp [CircuitBreaker.record_failure, hst]
  refine ⟨h1, ?_⟩
  by_cases hto : cb.recovery_timeout ≤ now - tf
  · simp [CircuitBreaker.can_attempt, h1, hlt, hrt, hto]
  · simp [CircuitBreaker.can_attempt, h1, hlt, hrt, hto]

theorem record_failure_restarts_window_witness :
    (((CircuitBreaker.init 1 300).record_failure 0).record_failure 10).state =
      CircuitState.opened :=
  ((record_failure_restarts_window ((CircuitBreaker.init 1 300).record_failure 0) 10 100).2
    (by decide)).1

/-- When `can_attempt` refuses, it changes nothing. -/
theorem can_attempt_false_state (cb : CircuitBreaker) (now : ℚ)
    (h : (cb.can_attempt now).1 = false) : (cb.can_attempt now).2 = cb := by
  by_cases h1 : cb.state = CircuitState.closed
  · simp [CircuitBreaker.can_attempt, h1] at h
  · by_cases h2 : cb.state = CircuitState.opened
    · cases hlt : cb.last_failure_time with
      | none => simp [CircuitBreaker.can_attempt, h1, h2, hlt]
      | some t =>
          by_cases hto : now - t ≥ cb.recovery_timeout
          · simp [CircuitBreaker.can_attempt, h1, h2, hlt, hto] at h
          · simp [CircuitBreaker.can_attempt, h1, h2, hlt, hto]
    · simp [CircuitBreaker.can_attempt, h1, h2] at h

/-- C3: `connect()` is a no-op returning true when already connected; when
the breaker refuses, it returns false without touching the transport and
with the whole controller state (breaker included) unchanged; otherwise it
attempts the transport connect, records success and resets the local
failure counter on success, and on any connection-class error records a
failure and returns false instead of raising. -/
theorem connect_spec (s : ConnState) (now : ℚ) (outcome : TransportOutcome) :
    (s.connected = true → connect s now outcome = ⟨true, false, s⟩) ∧
    (s.connected = false → (s.circuit_breaker.can_attempt now).1 = false →
      connect s now outcome = ⟨false, false, s⟩) ∧
    (s.connected = false → (s.circuit_breaker.can_attempt now).1 = true →
      (outcome = TransportOutcome.success →
        connect s now outcome =
          ⟨true, true, ⟨true, (s.circuit_breaker.can_attempt now).2.record_success, 0⟩⟩) ∧
      (outcome ≠ TransportOutcome.success →
        connect s now outcome =
          ⟨false, true, ⟨false, (s.circuit_breaker.can_attempt now).2.record_failure now,
            s.connect_failures + 1⟩⟩)) := by
  obtain ⟨c, cb0, cf⟩ := s
  refine ⟨?_, ?_, ?_⟩
  · intro hc
    simp only at hc
    subst hc
    simp [connect]
  · intro hc hatt
    have h2 := can_attempt_false_state cb0 now hatt
    simp only at hc
    subst hc
    simp [connect, hatt, h2]
  · intro hc hatt
    simp only at hc
    subst hc
    constructor
    · intro ho
      subst ho
      simp [connect, hatt]
    · intro ho
      cases outcome with
      | success => exact absurd rfl ho
      | notConnected => simp [connect, hatt]
      | connException => simp [connect, hatt]
      | osError => simp [connect, hatt]
      | otherError => simp [connect, hatt]

theorem connect_spec_witness :
    connect ⟨false, CircuitBreaker.init 5 300, 0⟩ 0 TransportOutcome.success =
      ⟨true, true, ⟨true, ((CircuitBreaker.init 5 300).can_attempt 0).2.record_success, 0⟩⟩ :=
  ((connect_spec ⟨false, CircuitBreaker.init 5 300, 0⟩ 0 TransportOutcome.success).2.2
    rfl (by decide)).1 rfl

/-- C5: the two-register combine computes `(high << 16) | (low & 0xFFFF)`
— arithmetically `high * 2^16 + low` for 16-bit inputs — and subtracts
`2^32` exactly when that unsigned combination is at least `2^31`; the three
documented example values follow. -/
theorem split_s32_spec (high low : Nat) (hh : high < 65536) (hl : low < 65536) :
    split_s32 [high, low] =
      (if high * 65536 + low ≥ 2 ^ 31 then ((high * 65536 + low : Nat) : ℤ) - 2 ^ 32
       else ((high * 65536 + low : Nat) : ℤ)) ∧
    split_s32 [0x0001, 0x0002] = 65538 ∧
    split_s32 [0xFFFF, 0xFFFF] = -1 ∧
    split_s32 [0x0000, 0x0000] = 0 := by
  refine ⟨?_, by decide, by decide, by decide⟩
  have hand : low &&& 0xFFFF = low := by
    have h16 : (0xFFFF : Nat) = 2 ^ 16 - 1 := by norm_num
    rw [h16, Nat.and_pow_two_sub_one_eq_mod, Nat.mod_eq_of_lt hl]
  have hor : (high <<< 16) ||| low = high * 65536 + low := by
    have h1 : high <<< 16 = high * 2 ^ 16 := Nat.shiftLeft_eq high 16
    have h2 := Nat.mul_add_lt_is_or (i := 16) hl high
    rw [h1, mul_comm high (2 ^ 16), ← h2]
    norm_num [mul_comm]
  simp only [split_s32, hand, hor]

theorem split_s32_spec_witness :
    split_s32 [0x0001, 0x0002] = 65538 :=
  (split_s32_spec 1 2 (by decide) (by decide)).2.1

theorem rstripP_eq_nil_iff (p : Nat → Bool) (t : List Nat) :
    rstripP p t = [] ↔ ∀ x ∈ t, p x = true := by
  unfold rstripP
  rw [List.reverse_eq_nil_iff, List.dropWhile_eq_nil_iff]
  simp [List.mem_reverse]

theorem rstripP_cons_neg (p : Nat → Bool) (a : Nat) (t : List Nat) (h : p a = false) :
    rstripP p (a :: t) = a :: rstripP p t := by
  unfold rstripP
  rw [List.reverse_cons, List.dropWhile_append]
  by_cases he : (t.reverse.dropWhile p).isEmpty = true
  · rw [if_pos he]
    have ht : t.reverse.dropWhile p = [] := List.isEmpty_iff.mp he
    rw [ht]
    simp [List.dropWhile_cons, h]
  · rw [if_neg he]
    simp

theorem rstripP_cons_of_ne_nil (p : Nat → Bool) (a : Nat) (t : List Nat)
    (h : rstripP p t ≠ []) : rstripP p (a :: t) = a :: rstripP p t := by
  unfold rstripP at h ⊢
  rw [List.reverse_cons, List.dropWhile_append]
  have he : ¬(t.reverse.dropWhile p).isEmpty = true := by
    intro hem
    exact h (by rw [List.isEmpty_iff.mp hem]; rfl)
  rw [if_neg he]
  simp

/-- Stripping a predicate from the front and from the back commute. -/
theorem lstripP_rstripP_comm (p : Nat → Bool) (s : List Nat) :
    lstripP p (rstripP p s) = rstripP p (lstripP p s) := by
  induction s with
  | nil => rfl
  | cons a t ih =>
      by_cases hpa : p a = true
      · have hl : lstripP p (a :: t) = lstripP p t := by
          simp [lstripP, List.dropWhile_cons, hpa]
        by_cases hall : ∀ x ∈ t, p x = true
        · have h1 : rstripP p (a :: t) = [] := by
            rw [rstripP_eq_nil_iff]
            intro x hx
            rcases List.mem_cons.mp hx with hx | hx
            · rw [hx]; exact hpa
            · exact hall x hx
          have h2 : lstripP p t = [] := by
            simp only [lstripP, List.dropWhile_eq_nil_iff]
            exact hall
          rw [hl, h1, h2]
          rfl
        · have hne : rstripP p t ≠ [] := fun hemp => hall ((rstripP_eq_nil_iff p t).mp hemp)
          rw [hl, rstripP_cons_of_ne_nil p a t hne]
          have hstep : lstripP p (a :: rstripP p t) = lstripP p (rstripP p t) := by
            simp [lstripP, List.dropWhile_cons, hpa]
          rw [hstep, ih]
      · have hpa' : p a = false := by simpa using hpa
        have hl : lstripP p (a :: t) = a :: t := by
          simp [lstripP, List.dropWhile_cons, hpa']
        rw [hl, rstripP_cons_neg p a t hpa']
        simp [lstripP, List.dropWhile_cons, hpa']

/-- C4 counterexample: on registers `[0x2041, 0x4200]` — the bytes
`20 41 42 00`, i.e. `" AB\x00"` — the implementation strips the *leading*
space as well (`.strip()` works on both ends), so it returns `"AB"` while
the claimed trailing-only pipeline returns `" AB"`.  Both cited decoders
(`_decode_string` and `extract_serial_number`) disagree with the claim
here. -/
theorem string_decode_claim_counterexample :
    decode_string [0x2041, 0x4200] ≠ claimStringDecode [0x2041, 0x4200] ∧
    decode_string [0x2041, 0x4200] = [0x41, 0x42] ∧
    extract_serial_number [0x2041, 0x4200] = [0x41, 0x42] ∧
    claimStringDecode [0x2041, 0x4200] = [0x20, 0x41, 0x42] := by
  decide

/-- C4 amended: both multi-register string decoders pack each register as
two big-endian bytes and strip from *both* ends, but they differ in the
rest of the pipeline.  The battery decoder `_decode_string` decodes the
bytes as UTF-8 ignoring invalid bytes, strips trailing NULs, then strips
whitespace from both ends; the sensor-codec decoder
`extract_serial_number` decodes as ASCII dropping every non-ASCII byte and
strips only NUL, CR, LF and space, from both ends.  Both decode
`[0x4142, 0x4300]` to `"ABC"`; they genuinely diverge, e.g. on
`[0x4142, 0x4309]` (`"ABC\t"`), where only the battery decoder removes the
trailing tab. -/
theorem string_decode_amended (registers : List Nat) :
    decode_string registers = amendedStringDecode registers ∧
    extract_serial_number registers = amendedSerialDecode registers ∧
    decode_string [0x4142, 0x4300] = [0x41, 0x42, 0x43] ∧
    extract_serial_number [0x4142, 0x4300] = [0x41, 0x42, 0x43] ∧
    decode_string [0x4142, 0x4309] = [0x41, 0x42, 0x43] ∧
    extract_serial_number [0x4142, 0x4309] = [0x41, 0x42, 0x43, 0x09] := by
  refine ⟨?_, ?_, by decide, by decide, by decide, by decide⟩
  · unfold decode_string amendedStringDecode stripP
    exact lstripP_rstripP_comm isPySpace _
  · unfold extract_serial_number amendedSerialDecode stripP
    exact lstripP_rstripP_comm _ _

/-- C6: a single-register field is sign-corrected by `-65536` exactly when
the signed flag is set and the raw value is at least `32768`; a scale of
`0` or `1` returns the (integral) value itself — Python's `round()` on an
`int` — and any other scale multiplies; the two documented example decodes
follow. -/
theorem convert_raw_value_single (v : Nat) (hv : v < 65536) (multiplier : ℚ) (signed : Bool) :
    convert_raw_value 1 multiplier signed [some v] =
      some (SensorValue.num
        (if multiplier = 0 ∨ multiplier = 1 then
          (((if signed ∧ v ≥ 32768 then (v : ℤ) - 65536 else (v : ℤ)) : ℤ) : ℚ)
         else (((if signed ∧ v ≥ 32768 then (v : ℤ) - 65536 else (v : ℤ)) : ℤ) : ℚ)
            * multiplier)) ∧
    convert_raw_value 1 (1 / 10) false [some 500] = some (SensorValue.num 50) ∧
    convert_raw_value 1 (1 / 10) true [some 10] = some (SensorValue.num 1) := by
  refine ⟨?_, by norm_num [convert_raw_value, sequenceValues],
    by norm_num [convert_raw_value, sequenceValues]⟩
  simp only [convert_raw_value, sequenceValues]
  simp
  split_ifs <;> simp

theorem convert_raw_value_single_witness :
    convert_raw_value 1 (1 / 10) false [some 500] = some (SensorValue.num 50) :=
  (convert_raw_value_single 500 (by decide) (1 / 10) false).2.1

theorem dictGet_dictSet_self {β : Type} (m : List (String × β)) (k : String) (v : β) :
    dictGet (dictSet m k v) k = some v := by
  induction m with
  | nil => simp [dictSet, dictGet]
  | cons kv t ih =>
      obtain ⟨k', v'⟩ := kv
      by_cases h : k' = k
      · simp [dictSet, dictGet, h]
      · simp [dictSet, dictGet, h, ih]

theorem dictGet_eq_none_iff {β : Type} (m : List (String × β)) (k : String) :
    dictGet m k = none ↔ k ∉ m.map Prod.fst := by
  induction m with
  | nil => simp [dictGet]
  | cons kv t ih =>
      obtain ⟨k', v'⟩ := kv
      by_cases h : k' = k
      · subst h
        simp [dictGet]
      · simp only [dictGet, if_neg h, List.map_cons, List.mem_cons, ih]
        constructor
        · intro hn
          intro hc
          rcases hc with hc | hc
          · exact h hc.symm
          · exact hn hc
        · intro hn
          exact fun hc => hn (Or.inr hc)

theorem dictGet_some_mem {β : Type} (m : List (String × β)) (k : String) (v : β)
    (h : dictGet m k = some v) : (k, v) ∈ m := by
  induction m with
  | nil => simp [dictGet] at h
  | cons kv t ih =>
      obtain ⟨k', v'⟩ := kv
      by_cases hk : k' = k
      · subst hk
        simp [dictGet] at h
        subst h
        exact List.mem_cons_self _ _
      · simp only [dictGet, if_neg hk] at h
        exact List.mem_cons_of_mem _ (ih h)

theorem mem_dictSet {β : Type} (m : List (String × β)) (k : String) (v : β) (kv : String × β)
    (h : kv ∈ dictSet m k v) : kv ∈ m ∨ kv = (k, v) := by
  induction m with
  | nil =>
      simp [dictSet] at h
      right
      exact h
  | cons hd t ih =>
      obtain ⟨k', v'⟩ := hd
      by_cases hk : k' = k
      · simp only [dictSet, if_pos hk, List.mem_cons] at h
        rcases h with h | h
        · right; exact h
        · left; exact List.mem_cons_of_mem _ h
      · simp only [dictSet, if_neg hk, List.mem_cons] at h
        rcases h with h | h
        · left; rw [h]; exact List.mem_cons_self _ _
        · rcases ih h with h2 | h2
          · left; exact List.mem_cons_of_mem _ h2
          · right; exact h2

theorem mem_keys_dictSet {β : Type} (m : List (String × β)) (k : String) (v : β) (x : String) :
    x ∈ (dictSet m k v).map Prod.fst ↔ x ∈ m.map Prod.fst ∨ x = k := by
  induction m with
  | nil => simp [dictSet]
  | cons hd t ih =>
      obtain ⟨k', v'⟩ := hd
      by_cases hk : k' = k
      · subst hk
        simp [dictSet, List.mem_cons]
        tauto
      · simp only [dictSet, if_neg hk, List.map_cons, List.mem_cons, ih]
        tauto

theorem dictSet_keys_nodup {β : Type} (m : List (String × β)) (k : String) (v : β)
    (h : (m.map Prod.fst).Nodup) : ((dictSet m k v).map Prod.fst).Nodup := by
  induction m with
  | nil => simp [dictSet]
  | cons hd t ih =>
      obtain ⟨k', v'⟩ := hd
      rw [List.map_cons, List.nodup_cons] at h
      by_cases hk : k' = k
      · subst hk
        simp [dictSet] at h ⊢
        exact h
      · simp only [dictSet, if_neg hk, List.map_cons, List.nodup_cons]
        refine ⟨?_, ih h.2⟩
        intro hc
        rcases (mem_keys_dictSet t k v k').mp hc with hc | hc
        · exact h.1 hc
        · exact hk hc

theorem dictDel_keys_sublist {β : Type} (m : List (String × β)) (k : String) :
    List.Sublist ((dictDel m k).map Prod.fst) (m.map Prod.fst) := by
  induction m with
  | nil => simp [dictDel]
  | cons hd t ih =>
      obtain ⟨k', v'⟩ := hd
      by_cases hk : k' = k
      · simp only [dictDel, if_pos hk, List.map_cons]
        exact List.sublist_cons_self _ _
      · simp only [dictDel, if_neg hk, List.map_cons]
        exact List.Sublist.cons₂ _ ih

theorem dictGet_dictDel_self {β : Type} (m : List (String × β)) (k : String)
    (h : (m.map Prod.fst).Nodup) : dictGet (dictDel m k) k = none := by
  induction m with
  | nil => rfl
  | cons hd t ih =>
      obtain ⟨k', v'⟩ := hd
      rw [List.map_cons, List.nodup_cons] at h
      by_cases hk : k' = k
      · subst hk
        simp only [dictDel, if_pos rfl]
        exact (dictGet_eq_none_iff t k').mpr h.1
      · simp only [dictDel, if_neg hk, dictGet, if_neg hk]
        exact ih h.2

theorem dictDel_length {β : Type} (m : List (String × β)) (k : String) (v : β)
    (h : dictGet m k = some v) : (dictDel m k).length + 1 = m.length := by
  induction m with
  | nil => simp [dictGet] at h
  | cons hd t ih =>
      obtain ⟨k', v'⟩ := hd
      by_cases hk : k' = k
      · simp [dictDel, hk]
      · simp only [dictGet, if_neg hk] at h
        simp only [dictDel, if_neg hk, List.length_cons]
        rw [← ih h]

/-- C7: after `set(key, register, value, ttl)` at time `now`, `get` at any
time before `now + ttl` returns the stored value; from `now + ttl` on, `get`
returns `None`, the entry is purged so `stats().total_entries` drops by one,
and every later `get` still returns `None` — the entry is logically absent
from the instant `now >= expires_at` even before the purge. -/
theorem register_cache_ttl (cache : RegisterCache) (hnd : (cache.map Prod.fst).Nodup)
    (now now2 : ℚ) (ck : String) (register : Nat) (value : ℤ) (ttl : ℚ) :
    (now2 < now + ttl →
      (cacheGet (cacheSet cache now ck register value ttl) now2 ck register).1 = some value) ∧
    (now2 ≥ now + ttl →
      (cacheGet (cacheSet cache now ck register value ttl) now2 ck register).1 = none ∧
      (cacheStats (cacheGet (cacheSet cache now ck register value ttl) now2 ck register).2
          now2).total_entries + 1 =
        (cacheStats (cacheSet cache now ck register value ttl) now2).total_entries ∧
      ∀ now3,
        (cacheGet (cacheGet (cacheSet cache now ck register value ttl) now2 ck register).2
            now3 ck register).1 = none) := by
  have hget : dictGet (cacheSet cache now ck register value ttl) (make_key ck register) =
      some ⟨value, now + ttl⟩ :=
    dictGet_dictSet_self cache (make_key ck register) ⟨value, now + ttl⟩
  constructor
  · intro hlt
    have h1 : (cacheGet (cacheSet cache now ck register value ttl) now2 ck register) =
        (some value, cacheSet cache now ck register value ttl) := by
      simp only [cacheGet]
      rw [hget]
      simp [not_le.mpr hlt]
    rw [h1]
  · intro hge
    have h1 : (cacheGet (cacheSet cache now ck register value ttl) now2 ck register) =
        (none, dictDel (cacheSet cache now ck register value ttl) (make_key ck register)) := by
      simp only [cacheGet]
      rw [hget]
      simp [hge]
    refine ⟨by rw [h1], ?_, ?_⟩
    · rw [h1]
      simp only [cacheStats]
      exact dictDel_length _ _ _ hget
    · intro now3
      rw [h1]
      have hnone : dictGet (dictDel (cacheSet cache now ck register value ttl)
          (make_key ck register)) (make_key ck register) = none :=
        dictGet_dictDel_self _ _ (dictSet_keys_nodup cache (make_key ck register) _ hnd)
      simp only [cacheGet]
      rw [hnone]

theorem register_cache_ttl_witness :
    (cacheGet (cacheSet [] 0 "k" 5000 1234 60) 60 "k" 5000).1 = none :=
  ((register_cache_ttl [] (by simp) 0 60 "k" 5000 1234 60).2 (by norm_num)).1

theorem mem_dictDel {β : Type} (m : List (String × β)) (k : String) (kv : String × β)
    (h : kv ∈ dictDel m k) : kv ∈ m := by
  induction m with
  | nil => simp [dictDel] at h
  | cons hd t ih =>
      obtain ⟨k', v'⟩ := hd
      by_cases hk : k' = k
      · simp only [dictDel, if_pos hk] at h
        exact List.mem_cons_of_mem _ h
      · simp only [dictDel, if_neg hk, List.mem_cons] at h
        rcases h with h | h
        · rw [h]; exact List.mem_cons_self _ _
        · exact List.mem_cons_of_mem _ (ih h)

theorem poolStep_inv (conn : Nat → Bool) (s : PoolState) (op : PoolOp) (h : PoolInv s) :
    PoolInv (poolStep conn s op) := by
  obtain ⟨hnd, hent⟩ := h
  cases op with
  | acquire key =>
      simp only [poolStep, get_tcp_client]
      cases hg : dictGet s.clients key with
      | none =>
          refine ⟨dictSet_keys_nodup _ _ _ hnd, ?_⟩
          intro kv hkv
          rcases mem_dictSet _ _ _ _ hkv with hm | he
          · have hold := hent kv hm
            exact ⟨hold.1, Nat.lt_succ_of_lt hold.2⟩
          · rw [he]
            exact ⟨le_refl 1, Nat.lt_succ_self _⟩
      | some e =>
          refine ⟨dictSet_keys_nodup _ _ _ hnd, ?_⟩
          intro kv hkv
          rcases mem_dictSet _ _ _ _ hkv with hm | he
          · exact hent kv hm
          · rw [he]
            have hm2 := hent (key, e) (dictGet_some_mem _ _ _ hg)
            refine ⟨?_, hm2.2⟩
            have h1 : (1 : ℤ) ≤ e.ref_count := hm2.1
            show (1 : ℤ) ≤ e.ref_count + 1
            omega
  | release key =>
      cases hg : dictGet s.clients key with
      | none =>
          have heq : release_client conn s key = s := by
            simp [release_client, hg]
          simp only [poolStep, heq]
          exact ⟨hnd, hent⟩
      | some e =>
          by_cases hrc : e.ref_count ≤ 1
          · have heq : release_client conn s key =
                ⟨dictDel s.clients key, s.next_client,
                  if conn e.client then s.closed ++ [e.client] else s.closed⟩ := by
              simp [release_client, hg, hrc]
            simp only [poolStep, heq]
            refine ⟨List.Nodup.sublist (dictDel_keys_sublist _ _) hnd, ?_⟩
            intro kv hkv
            exact hent kv (mem_dictDel _ _ _ hkv)
          · have heq : release_client conn s key =
                ⟨dictSet s.clients key ⟨e.client, e.ref_count - 1⟩,
                  s.next_client, s.closed⟩ := by
              simp [release_client, hg, hrc]
            simp only [poolStep, heq]
            refine ⟨dictSet_keys_nodup _ _ _ hnd, ?_⟩
            intro kv hkv
            rcases mem_dictSet _ _ _ _ hkv with hm | he
            · exact hent kv hm
            · rw [he]
              have hm2 := hent (key, e) (dictGet_some_mem _ _ _ hg)
              refine ⟨?_, hm2.2⟩
              show (1 : ℤ) ≤ e.ref_count - 1
              omega

theorem poolRun_inv (conn : Nat → Bool) (s : PoolState) (ops : List PoolOp) (h : PoolInv s) :
    PoolInv (poolRun conn s ops) := by
  induction ops generalizing s with
  | nil => exact h
  | cons op rest ih => exact ih (poolStep conn s op) (poolStep_inv conn s op h)

theorem poolReachable_inv (conn : Nat → Bool) (s : PoolState) (h : PoolReachable conn s) :
    PoolInv s := by
  obtain ⟨ops, hrun⟩ := h
  have hs : PoolInv PoolState.start := by
    refine ⟨by simp [PoolState.start], ?_⟩
    intro kv hkv
    simp [PoolState.start] at hkv
  simpa [hrun] using poolRun_inv conn PoolState.start ops hs

/-- C8: in every reachable pool state, stored refcounts are positive (never
negative); the first acquire for an identity creates a transport distinct
from every stored one and leaves refcount 1, a second acquire returns the
same transport and leaves refcount 2; any acquire on a present identity
returns the stored transport and increments its count; a release
decrements, and closes (when the transport is connected) and removes the
entry exactly when the count drops to zero or below. -/
theorem pool_refcount_spec (conn : Nat → Bool) (s : PoolState) (h : PoolReachable conn s)
    (key : String) :
    (∀ kv ∈ s.clients, 0 ≤ kv.2.ref_count) ∧
    (dictGet s.clients key = none →
      (∀ kv ∈ s.clients, kv.2.client ≠ (get_tcp_client s key).1) ∧
      dictGet (get_tcp_client s key).2.clients key = some ⟨(get_tcp_client s key).1, 1⟩ ∧
      (get_tcp_client (get_tcp_client s key).2 key).1 = (get_tcp_client s key).1 ∧
      dictGet (get_tcp_client (get_tcp_client s key).2 key).2.clients key =
        some ⟨(get_tcp_client s key).1, 2⟩) ∧
    (∀ e, dictGet s.clients key = some e →
      (get_tcp_client s key).1 = e.client ∧
      dictGet (get_tcp_client s key).2.clients key = some ⟨e.client, e.ref_count + 1⟩) ∧
    (∀ e, dictGet s.clients key = some e →
      (e.ref_count - 1 ≤ 0 →
        dictGet (release_client conn s key).clients key = none ∧
        (conn e.client = true → (release_client conn s key).closed = s.closed ++ [e.client]) ∧
        (conn e.client = false → (release_client conn s key).closed = s.closed)) ∧
      (0 < e.ref_count - 1 →
        dictGet (release_client conn s key).clients key = some ⟨e.client, e.ref_count - 1⟩ ∧
        (release_client conn s key).closed = s.closed)) := by
  obtain ⟨hnd, hent⟩ := poolReachable_inv conn s h
  refine ⟨?_, ?_, ?_, ?_⟩
  · intro kv hkv
    exact le_trans (by norm_num) (hent kv hkv).1
  · intro hg
    have hfst : get_tcp_client s key = (s.next_client,
        ⟨dictSet s.clients key ⟨s.next_client, 1⟩, s.next_client + 1, s.closed⟩) := by
      simp [get_tcp_client, hg]
    have hsnd : dictGet (dictSet s.clients key ⟨s.next_client, 1⟩) key =
        some ⟨s.next_client, 1⟩ := dictGet_dictSet_self _ _ _
    refine ⟨?_, ?_, ?_, ?_⟩
    · intro kv hkv
      rw [hfst]
      exact Nat.ne_of_lt (hent kv hkv).2
    · rw [hfst]
      exact hsnd
    · rw [hfst]
      simp [get_tcp_client, hsnd]
    · rw [hfst]
      simp only [get_tcp_client, hsnd]
      have : dictGet (dictSet (dictSet s.clients key ⟨s.next_client, 1⟩) key
          ⟨s.next_client, 1 + 1⟩) key = some ⟨s.next_client, 1 + 1⟩ :=
        dictGet_dictSet_self _ _ _
      simpa using this
  · intro e hg
    constructor
    · simp [get_tcp_client, hg]
    · simp only [get_tcp_client, hg]
      exact dictGet_dictSet_self _ _ _
  · intro e hg
    constructor
    · intro hrc
      have hrc2 : e.ref_count ≤ 1 := by omega
      have heq : release_client conn s key =
          ⟨dictDel s.clients key, s.next_client,
            if conn e.client then s.closed ++ [e.client] else s.closed⟩ := by
        simp [release_client, hg, hrc2]
      refine ⟨?_, ?_, ?_⟩
      · rw [heq]
        exact dictGet_dictDel_self _ _ hnd
      · intro hconn
        rw [heq]
        simp [hconn]
      · intro hconn
        rw [heq]
        simp [hconn]
    · intro hrc
      have hrc2 : ¬ e.ref_count ≤ 1 := by omega
      have heq : release_client conn s key =
          ⟨dictSet s.clients key ⟨e.client, e.ref_count - 1⟩, s.next_client, s.closed⟩ := by
        simp [release_client, hg, hrc2]
      constructor
      · rw [heq]
        exact dictGet_dictSet_self _ _ _
      · rw [heq]

theorem pool_refcount_spec_witness :
    dictGet (get_tcp_client (get_tcp_client PoolState.start "h:502").2 "h:502").2.clients
        "h:502" =
      some ⟨(get_tcp_client PoolState.start "h:502").1, 2⟩ :=
  ((pool_refcount_spec (fun _ => true) PoolState.start ⟨[], rfl⟩ "h:502").2.1 rfl).2.2.2

theorem detectFrom_eq_takeWhile (probe : Nat → Bool) :
    ∀ n idx, detectFrom probe idx n = (List.range' idx n).takeWhile probe := by
  intro n
  induction n with
  | zero => intro idx; rfl
  | succ n ih =>
      intro idx
      rw [List.range'_succ, List.takeWhile_cons]
      by_cases hp : probe idx
      · simp only [detectFrom, if_pos hp, hp, if_true]
        rw [ih]
      · simp [detectFrom, hp]

theorem detectFrom_length_le (probe : Nat → Bool) :
    ∀ n idx, (detectFrom probe idx n).length ≤ n := by
  intro n
  induction n with
  | zero => intro idx; simp [detectFrom]
  | succ n ih =>
      intro idx
      by_cases hp : probe idx
      · simp only [detectFrom, if_pos hp, List.length_cons]
        exact Nat.succ_le_succ (ih (idx + 1))
      · simp [detectFrom, hp]

theorem mem_detectFrom (probe : Nat → Bool) :
    ∀ n idx j, j ∈ detectFrom probe idx n →
      probe j = true ∧ ∀ i, idx ≤ i → i ≤ j → probe i = true := by
  intro n
  induction n with
  | zero => intro idx j hj; simp [detectFrom] at hj
  | succ n ih =>
      intro idx j hj
      by_cases hp : probe idx
      · simp only [detectFrom, if_pos hp] at hj
        rcases List.mem_cons.mp hj with hj | hj
        · subst hj
          refine ⟨hp, ?_⟩
          intro i h1 h2
          have : i = j := le_antisymm h2 h1
          rw [this]
          exact hp
        · obtain ⟨hpj, hall⟩ := ih (idx + 1) j hj
          refine ⟨hpj, ?_⟩
          intro i h1 h2
          by_cases hi : i = idx
          · rw [hi]; exact hp
          · exact hall i (by omega) h2
      · simp [detectFrom, hp] at hj

/-- C9: sub-device discovery returns exactly the contiguous prefix of stack
indices with successful probes — every detected index has all smaller
indices successful, no index past a failed probe is ever detected, at most
`MAX_BATTERY_STACKS` (4) stacks result, and each detected stack is
addressed at alternate slave id `200 + index`. -/
theorem detect_battery_stacks_spec (probe : Nat → Bool) :
    detect_battery_stacks probe = (List.range MAX_BATTERY_STACKS).takeWhile probe ∧
    (detect_battery_stacks probe).length ≤ 4 ∧
    (∀ j ∈ detect_battery_stacks probe, probe j = true ∧ ∀ i, i ≤ j → probe i = true) ∧
    (∀ i j, probe i = false → i < j → j ∉ detect_battery_stacks probe) ∧
    (∀ i ∈ detect_battery_stacks probe, battery_slave_id i = 200 + i) := by
  refine ⟨?_, ?_, ?_, ?_, ?_⟩
  · rw [detect_battery_stacks, List.range_eq_range']
    exact detectFrom_eq_takeWhile probe MAX_BATTERY_STACKS 0
  · exact detectFrom_length_le probe MAX_BATTERY_STACKS 0
  · intro j hj
    have h := mem_detectFrom probe MAX_BATTERY_STACKS 0 j hj
    exact ⟨h.1, fun i hi => h.2 i (Nat.zero_le i) hi⟩
  · intro i j hpi hij hj
    have h := mem_detectFrom probe MAX_BATTERY_STACKS 0 j hj
    have hcontra := h.2 i (Nat.zero_le i) (le_of_lt hij)
    rw [hpi] at hcontra
    exact Bool.false_ne_true hcontra
  · intro i _
    rfl

theorem detect_battery_stacks_spec_witness :
    (3 : Nat) ∉ detect_battery_stacks (fun i => decide (i < 2)) :=
  (detect_battery_stacks_spec (fun i => decide (i < 2))).2.2.2.1 2 3 (by decide) (by decide)

theorem map_pair_fst {ρ : Type} (f : WriteRequest → FutureState ρ) (q : List WriteRequest) :
    (q.map (fun r => (r, f r))).map Prod.fst = q := by
  rw [List.map_map]
  have hcomp : (Prod.fst ∘ fun r : WriteRequest => (r, f r)) = id := rfl
  rw [hcomp, List.map_id]

theorem drainQueue_unresolved {ρ : Type} (execWrite : WriteRequest → Option ρ)
    (q : List WriteRequest) :
    ((drainQueue execWrite q).filter (fun e => e.2.isUnresolved)).length = 0 := by
  induction q with
  | nil => rfl
  | cons r t ih =>
      simpa [drainQueue, List.filter_cons, FutureState.isUnresolved] using ih

theorem drainQueue_resolved_mem {ρ : Type} (execWrite : WriteRequest → Option ρ)
    (q : List WriteRequest) (r : WriteRequest) (res : Option ρ)
    (h : (r, FutureState.resolved res) ∈ drainQueue execWrite q) : res = execWrite r := by
  rcases List.mem_map.mp h with ⟨a, _, heq⟩
  have h1 : a = r := congrArg Prod.fst heq
  have h2 : FutureState.resolved (execWrite a) = FutureState.resolved res :=
    congrArg Prod.snd heq
  injection h2 with h3
  rw [← h3, h1]

theorem writeLoop_spec {ρ : Type} (execWrite : WriteRequest → Option ρ) (conn : Nat → Bool) :
    ∀ (n k : Nat) (q : List WriteRequest),
      ((writeLoop execWrite conn n k q).map Prod.fst = q) ∧
      (((writeLoop execWrite conn n k q).filter (fun e => e.2.isUnresolved)).length ≤ 1) ∧
      (∀ r res, (r, FutureState.resolved res) ∈ writeLoop execWrite conn n k q →
        res = execWrite r) := by
  intro n
  induction n with
  | zero =>
      intro k q
      by_cases hc : conn k
      · cases q with
        | nil => simp [writeLoop, hc]
        | cons r rest =>
            simp only [writeLoop, if_pos hc]
            refine ⟨?_, ?_, ?_⟩
            · simp only [List.map_cons, drainQueue, map_pair_fst]
            · have hd := drainQueue_unresolved execWrite rest
              rw [List.filter_cons]
              split
              · rw [List.length_cons, hd]
              · rw [hd]
                omega
            · intro r' res h
              rcases List.mem_cons.mp h with h | h
              · simp at h
              · exact drainQueue_resolved_mem execWrite rest r' res h
      · simp only [writeLoop, if_neg hc]
        refine ⟨?_, ?_, ?_⟩
        · simp only [drainQueue, map_pair_fst]
        · rw [drainQueue_unresolved]
          omega
        · intro r res h
          exact drainQueue_resolved_mem execWrite q r res h
  | succ n ih =>
      intro k q
      by_cases hc : conn k
      · cases q with
        | nil =>
            simp only [writeLoop, if_pos hc]
            exact ih (k + 1) []
        | cons r rest =>
            simp only [writeLoop, if_pos hc]
            obtain ⟨ih1, ih2, ih3⟩ := ih (k + 1) rest
            refine ⟨?_, ?_, ?_⟩
            · simp [ih1]
            · simpa [List.filter_cons, FutureState.isUnresolved] using ih2
            · intro r' res h
              rcases List.mem_cons.mp h with h | h
              · have h1 : r' = r := congrArg Prod.fst h
                have h2 : FutureState.resolved res =
                    FutureState.resolved (execWrite r) := congrArg Prod.snd h
                injection h2 with h3
                rw [h3, h1]
              · exact ih3 r' res h
      · simp only [writeLoop, if_neg hc]
        exact ih (k + 1) q

/-- C2 counterexample: with one queued request, connectivity up, and the
cancellation delivered inside that request's transport await (the only
suspension point of a connected, non-empty iteration), the request has
already been dequeued when the `CancelledError` propagates out of
`_execute_write_holding_register`, so `future.set_result` is never reached
and its future stays unresolved — refuting the claim that every request's
future is resolved exactly once at every cancellation instant. -/
theorem write_queue_claim_counterexample :
    process_write_queue (fun r : WriteRequest => some r.register) (fun _ => true) 0
        [⟨100, [5], false⟩] =
      [(⟨100, [5], false⟩, FutureState.unresolved)] ∧
    process_write_queue (fun r : WriteRequest => some r.register) (fun _ => true) 0
        [⟨100, [5], false⟩] ≠
      [(⟨100, [5], false⟩, FutureState.resolved (some 100))] := by
  decide

/-- C2 (amended): for any connectivity schedule and any cancellation
instant, the consumer executes writes strictly in submission (FIFO) order
with at most one write in flight (the trace lists every submitted request
exactly once, in order); every future that is resolved is resolved exactly
once with the transport result of its own write (`none` on failure); and
at most one request — the one in flight inside the transport await when
the cancellation is delivered, already dequeued — can be left with its
future unresolved: every request still in the queue at cancellation time
is drained, executed and resolved before the cancellation propagates. -/
theorem write_queue_fifo_drain_amended {ρ : Type} (execWrite : WriteRequest → Option ρ)
    (conn : Nat → Bool) (cancelAt : Nat) (q : List WriteRequest) :
    (process_write_queue execWrite conn cancelAt q).map Prod.fst = q ∧
    ((process_write_queue execWrite conn cancelAt q).filter
        (fun e => e.2.isUnresolved)).length ≤ 1 ∧
    (∀ r res, (r, FutureState.resolved res) ∈ process_write_queue execWrite conn cancelAt q →
      res = execWrite r) :=
  writeLoop_spec execWrite conn cancelAt 0 q

theorem write_queue_fifo_drain_amended_witness :
    (some 100 : Option Nat) = (fun r : WriteRequest => some r.register) ⟨100, [5], false⟩ :=
  (write_queue_fifo_drain_amended (fun r => some r.register) (fun _ => true) 5
      [⟨100, [5], false⟩]).2.2 ⟨100, [5], false⟩ (some 100) (by decide)

end SungrowModbus
